import Mathlib

/-!
EMCLab-Sinica/Tools: `our_misc.h` and `myuart.h`.

A shallow embedding of the busy-wait delay of `our_misc.h` and of the serial
output interface declared in `myuart.h`, with the properties stated about them.

* `uint32_t` values are natural numbers below `2 ^ 32`; arithmetic on the
  loop register is taken modulo `2 ^ 32`.
* The inline assembly of `our_delay_cycles_internal` is a two-instruction loop;
  it is embedded as a step function on the register together with a count of
  executed `subs`/`bne` pairs, and run with explicit fuel.
* `#ifdef` conditions are explicit parameters.
-/

namespace Tools

/-! ## `our_misc.h` -/

/-- The modulus of `uint32_t` arithmetic. -/
def UINT32_MOD : Nat := 2 ^ 32

/-- Machine state of the delay loop: the register bound to `%[n_cycles]`, the
number of `subs`/`bne` pairs executed so far, and whether control has fallen
through the `bne`. -/
structure DelayState where
  counter : Nat
  iters : Nat
  exited : Bool
deriving DecidableEq, Repr

/-- The instruction `subs r, r, #1`: decrement the 32-bit register, wrapping. -/
def subs (r : Nat) : Nat := (r + UINT32_MOD - 1) % UINT32_MOD

/-- One pass through the loop body `subs %[n_cycles], %[n_cycles], #1; bne loop`:
the register is decremented, and `bne` branches back unless the result is zero. -/
def loopIter (s : DelayState) : DelayState :=
  let c := subs s.counter
  { counter := c, iters := s.iters + 1, exited := c == 0 }

/-- The loop at label `.Lour_delay_cycles_loop`, run for at most `fuel` passes.
`none` means the loop is still running when the fuel is used up. -/
def our_delay_cycles_loop : Nat → DelayState → Option DelayState
  | 0, _ => none
  | fuel + 1, s =>
    let s1 := loopIter s
    if s1.exited then some s1 else our_delay_cycles_loop fuel s1

/-- The function `our_delay_cycles_internal(uint32_t n_cycles)`. With `__arm__`
defined (`arm = true`) the body is the assembly loop entered with the
register holding `n_cycles`; without it the body is empty and the function
returns at once. -/
def our_delay_cycles_internal (arm : Bool) (fuel : Nat) (n_cycles : Nat) :
    Option DelayState :=
  if arm then
    our_delay_cycles_loop fuel
      { counter := n_cycles % UINT32_MOD, iters := 0, exited := false }
  else
    some { counter := n_cycles % UINT32_MOD, iters := 0, exited := true }

/-- The function-like macro
`#define our_delay_cycles(n_cycles) our_delay_cycles_internal(n_cycles / 3)`. -/
def our_delay_cycles (arm : Bool) (fuel : Nat) (n_cycles : Nat) : Option DelayState :=
  our_delay_cycles_internal arm fuel (n_cycles / 3)

/-- Number of passes the loop makes when entered with register value `c`:
a zero register wraps to `2 ^ 32 - 1` on the first decrement. -/
def loopPasses (c : Nat) : Nat := if c = 0 then UINT32_MOD else c

/-! ## `myuart.h`

The header declares `convert`, `convertl`, `print2uart` and `dummyprint` and
selects the debug sink `dprint2uart`; the bodies of the four functions live in
a translation unit outside the header. -/

/-- Output side of the UART as seen through the byte-output primitive: the
bytes transmitted so far and the number of times the primitive was invoked. -/
structure Uart where
  sent : List Char
  calls : Nat
deriving DecidableEq, Repr

/-- Modelled from the spec: the byte-output primitive (an external
collaborator), transmitting a single byte synchronously. -/
def putc (u : Uart) (c : Char) : Uart :=
  { sent := u.sent ++ [c], calls := u.calls + 1 }

/-- Transmit a string one byte at a time through `putc`. -/
def putStr (u : Uart) (cs : List Char) : Uart := cs.foldl putc u

/-- Modelled from the spec: the digit alphabet of the number converter,
the characters 0 to 9 followed by a to z. -/
def digitChar (d : Nat) : Char :=
  if d < 10 then Char.ofNat (48 + d) else Char.ofNat (87 + d)

/-- Modelled from the spec: the number of digits the shared conversion buffer
can hold, enough for a 64-bit value in base 2 (one further slot each is kept
for a sign and for the terminator). The buffer is defined with the converter
bodies, outside the header. -/
def BUFFER_DIGITS : Nat := 64

/-- Modelled from the spec: the digit loop of the number converter, which is
missing from the sources. While the value is not zero, the digit
`value mod base` is written in front of the digits produced so far and the
value is divided by the base. `none` means the buffer capacity `cap` is
exhausted before the value reaches zero. -/
def convertDigits : Nat → Nat → Nat → List Char → Option (List Char)
  | _, 0, _, acc => some acc
  | 0, _ + 1, _, _ => none
  | cap + 1, n + 1, base, acc =>
    convertDigits cap ((n + 1) / base) base (digitChar ((n + 1) % base) :: acc)

/-- Modelled from the spec: the body of `char *convert(unsigned int num, int base)`
is missing from the sources. Zero yields the string `"0"`; other values go
through the digit loop. A base outside `[2, 36]` is out of contract (`none`). -/
def convert (num : Nat) (base : Nat) : Option (List Char) :=
  if base < 2 ∨ 36 < base then none
  else if num % UINT32_MOD = 0 then some ['0']
  else convertDigits BUFFER_DIGITS (num % UINT32_MOD) base []

/-- Modelled from the spec: the body of
`char *convertl(unsigned long num, int base)` is missing from the sources; it
is the 64-bit variant of `convert`. -/
def convertl (num : Nat) (base : Nat) : Option (List Char) :=
  if base < 2 ∨ 36 < base then none
  else if num % 2 ^ 64 = 0 then some ['0']
  else convertDigits BUFFER_DIGITS (num % 2 ^ 64) base []

/-- Value of a digit character in the alphabet 0 to 9 then a to z. -/
def digitVal (c : Char) : Option Nat :=
  if 48 ≤ c.toNat ∧ c.toNat ≤ 57 then some (c.toNat - 48)
  else if 97 ≤ c.toNat ∧ c.toNat ≤ 122 then some (c.toNat - 87)
  else none

/-- Read the digits `s` in base `base`, most significant first, continuing
from the value `v` read so far. A character that is not a digit of the base
makes the reading fail. -/
def parseDigits (base : Nat) : Nat → List Char → Option Nat
  | v, [] => some v
  | v, c :: cs =>
    match digitVal c with
    | some d => if d < base then parseDigits base (v * base + d) cs else none
    | none => none

/-- Parse a non-empty base-`base` numeral. -/
def parseNumeral (base : Nat) (s : List Char) : Option Nat :=
  match s with
  | [] => none
  | _ :: _ => parseDigits base 0 s

/-- One variadic argument as it is fetched by the formatted writer. -/
inductive Arg where
  | word (v : Nat)
  | dword (v : Nat)
  | str (s : List Char)
deriving DecidableEq, Repr

/-- Send the result of a conversion, if there is one. -/
def putConverted (u : Uart) (r : Option (List Char)) : Option Uart :=
  r.map (putStr u)

/-- Modelled from the spec: a signed decimal conversion of a two-complement
value of the given width: a leading minus sign for negative values. -/
def putSigned (u : Uart) (width : Nat) (v : Nat)
    (conv : Nat → Nat → Option (List Char)) : Option Uart :=
  if v % 2 ^ width < 2 ^ (width - 1) then putConverted u (conv (v % 2 ^ width) 10)
  else putConverted (putc u '-') (conv (2 ^ width - v % 2 ^ width) 10)

/-- Modelled from the spec: a conversion specifier without the `l` modifier
consumes the next argument and emits it. Unsupported specifiers and
arguments of the wrong kind are not given a meaning (`none`). -/
def directive (c : Char) (args : List Arg) (u : Uart) : Option (List Arg × Uart) :=
  match args with
  | Arg.word v :: rest =>
    if c = 'd' ∨ c = 'i' then (putSigned u 32 v convert).map (Prod.mk rest)
    else if c = 'u' then (putConverted u (convert v 10)).map (Prod.mk rest)
    else if c = 'x' then (putConverted u (convert v 16)).map (Prod.mk rest)
    else if c = 'c' then some (rest, putc u (Char.ofNat (v % 256)))
    else none
  | Arg.str s :: rest =>
    if c = 's' then some (rest, putStr u s) else none
  | _ => none

/-- Modelled from the spec: a conversion specifier with the `l` modifier
consumes a 64-bit argument and emits it through `convertl`. -/
def directiveL (c : Char) (args : List Arg) (u : Uart) : Option (List Arg × Uart) :=
  match args with
  | Arg.dword v :: rest =>
    if c = 'd' ∨ c = 'i' then (putSigned u 64 v convertl).map (Prod.mk rest)
    else if c = 'u' then (putConverted u (convertl v 10)).map (Prod.mk rest)
    else if c = 'x' then (putConverted u (convertl v 16)).map (Prod.mk rest)
    else none
  | _ => none

/-- Position of the format scanner: in literal text, just after a percent
sign, or after a percent sign and the `l` modifier. -/
inductive Scan where
  | text
  | percent
  | percentL
deriving DecidableEq, Repr

/-- Modelled from the spec: the format-string interpreter behind `print2uart`,
whose body is missing from the sources. The format is scanned left to right;
characters other than the percent sign are sent verbatim, a doubled percent
sign sends one percent sign, and a conversion specifier consumes and emits
the next argument. `none` stands for the cases the spec leaves open. -/
def print2uartFrom : Scan → List Char → List Arg → Uart → Option Uart
  | Scan.text, [], _, u => some u
  | Scan.percent, [], _, _ => none
  | Scan.percentL, [], _, _ => none
  | Scan.text, c :: fmt, args, u =>
    if c = '%' then print2uartFrom Scan.percent fmt args u
    else print2uartFrom Scan.text fmt args (putc u c)
  | Scan.percent, c :: fmt, args, u =>
    if c = '%' then print2uartFrom Scan.text fmt args (putc u '%')
    else if c = 'l' then print2uartFrom Scan.percentL fmt args u
    else
      match directive c args u with
      | some (rest, u1) => print2uartFrom Scan.text fmt rest u1
      | none => none
  | Scan.percentL, c :: fmt, args, u =>
    match directiveL c args u with
    | some (rest, u1) => print2uartFrom Scan.text fmt rest u1
    | none => none

/-- Modelled from the spec: `void print2uart(const char* format, ...)`, declared
in the header with its body missing from the sources. -/
def print2uart (format : List Char) (args : List Arg) (u : Uart) : Option Uart :=
  print2uartFrom Scan.text format args u

/-- Modelled from the spec: `void dummyprint(const char* format, ...)`, declared
in the header with its body missing from the sources: the null sink, which
produces no output for any input. -/
def dummyprint (_format : List Char) (_args : List Arg) (u : Uart) : Option Uart :=
  some u

/-- The two functions the pointer `dprint2uart` can be initialised with. -/
inductive PrintFn where
  | print2uart
  | dummyprint
deriving DecidableEq, Repr

/-- Call through a pointer to one of the variadic print functions. -/
def PrintFn.call : PrintFn → List Char → List Arg → Uart → Option Uart
  | PrintFn.print2uart => Tools.print2uart
  | PrintFn.dummyprint => Tools.dummyprint

/-- Macros defined when the preprocessor reaches line 18 of `myuart.h`, given
the macros `ext` defined before the header is read (on the command line or
earlier in the translation unit). Line 1 defines `BuadRate`; line 9,
`//#define DEBUG 1`, is a comment and defines nothing. -/
def macrosAtSelection (ext : List String) : List String := "BuadRate" :: ext

/-- The initialiser of the static pointer `dprint2uart` (lines 18 to 22):
`print2uart` under `#ifdef DEBUG`, `dummyprint` under `#else`. -/
def dprint2uart (ext : List String) : PrintFn :=
  if "DEBUG" ∈ macrosAtSelection ext then PrintFn.print2uart else PrintFn.dummyprint

/-! ### The loop in closed form -/

theorem subs_zero : subs 0 = UINT32_MOD - 1 := by
  simp [subs, UINT32_MOD]

theorem subs_pos (c : Nat) (h0 : 0 < c) (hc : c < UINT32_MOD) : subs c = c - 1 := by
  unfold subs
  unfold UINT32_MOD at *
  omega

/-- Closed form of the fuelled loop: entered with register `c`, it makes
`loopPasses c` passes and leaves the register at zero, provided the fuel
covers that many passes, and is still running otherwise. -/
theorem our_delay_cycles_loop_eq (fuel : Nat) :
    ∀ (c k : Nat) (b : Bool), c < UINT32_MOD →
      our_delay_cycles_loop fuel { counter := c, iters := k, exited := b } =
        if loopPasses c ≤ fuel then
          some { counter := 0, iters := k + loopPasses c, exited := true }
        else none := by
  induction fuel with
  | zero =>
    intro c k b hc
    have : ¬ loopPasses c ≤ 0 := by
      unfold loopPasses UINT32_MOD
      split <;> omega
    simp [our_delay_cycles_loop, this]
  | succ fuel ih =>
    intro c k b hc
    rcases Nat.eq_zero_or_pos c with h0 | hpos
    · subst h0
      have hlt : UINT32_MOD - 1 < UINT32_MOD := by unfold UINT32_MOD; omega
      have hne : ¬ (UINT32_MOD - 1 = 0) := by unfold UINT32_MOD; omega
      have hp : loopPasses (UINT32_MOD - 1) = UINT32_MOD - 1 := by
        simp [loopPasses, hne]
      have hp0 : loopPasses 0 = UINT32_MOD := by simp [loopPasses]
      have h1 : 1 ≤ UINT32_MOD := by unfold UINT32_MOD; omega
      simp only [our_delay_cycles_loop, loopIter, subs_zero, beq_iff_eq, hne,
        if_false, decide_False, Bool.false_eq_true]
      rw [ih _ _ _ hlt, hp, hp0]
      by_cases hf : UINT32_MOD - 1 ≤ fuel
      · have hf2 : UINT32_MOD ≤ fuel + 1 := by omega
        have e : k + 1 + (UINT32_MOD - 1) = k + UINT32_MOD := by omega
        simp [hf, hf2, e]
      · have hf2 : ¬ UINT32_MOD ≤ fuel + 1 := by omega
        simp [hf, hf2]
    · have hs := subs_pos c hpos hc
      have hpc : loopPasses c = c := by
        have : c ≠ 0 := by omega
        simp [loopPasses, this]
      by_cases h1 : c = 1
      · subst h1
        simp [our_delay_cycles_loop, loopIter, hs, hpc]
      · have hne : ¬ (c - 1 = 0) := by omega
        have hlt : c - 1 < UINT32_MOD := by omega
        have hp : loopPasses (c - 1) = c - 1 := by simp [loopPasses, hne]
        simp only [our_delay_cycles_loop, loopIter, hs, beq_iff_eq, hne,
          if_false, decide_False, Bool.false_eq_true]
        rw [ih _ _ _ hlt, hp, hpc]
        by_cases hf : c - 1 ≤ fuel
        · have hf2 : c ≤ fuel + 1 := by omega
          have e : k + 1 + (c - 1) = k + c := by omega
          simp [hf, hf2, e]
        · have hf2 : ¬ c ≤ fuel + 1 := by omega
          simp [hf, hf2]

/-- Closed form of `our_delay_cycles_internal` on the ARM target. -/
theorem our_delay_cycles_internal_arm (fuel n : Nat) (hn : n < UINT32_MOD) :
    our_delay_cycles_internal true fuel n =
      if loopPasses n ≤ fuel then
        some { counter := 0, iters := loopPasses n, exited := true }
      else none := by
  have h := our_delay_cycles_loop_eq fuel n 0 false hn
  simp only [Nat.zero_add] at h
  simp [our_delay_cycles_internal, Nat.mod_eq_of_lt hn, h]

/-- Each pass of the loop body adds one to the count of executed pairs. -/
theorem loopIter_iterate_iters (k : Nat) :
    ∀ s : DelayState, (loopIter^[k] s).iters = s.iters + k := by
  induction k with
  | zero => intro s; simp
  | succ k ih =>
    intro s
    rw [Function.iterate_succ_apply, ih]
    simp [loopIter]
    omega

/-- A finished run of the fuelled loop is an iteration of the loop body: the
final state is reached after `k` passes, `k` within the fuel, and no earlier
pass falls through the branch. -/
theorem our_delay_cycles_loop_iterate (fuel : Nat) :
    ∀ s0 s : DelayState, our_delay_cycles_loop fuel s0 = some s →
      ∃ k, 1 ≤ k ∧ k ≤ fuel ∧ s = loopIter^[k] s0 ∧ s.exited = true ∧
        ∀ j, 1 ≤ j → j < k → (loopIter^[j] s0).exited = false := by
  induction fuel with
  | zero => intro s0 s h; simp [our_delay_cycles_loop] at h
  | succ fuel ih =>
    intro s0 s h
    simp only [our_delay_cycles_loop] at h
    by_cases hx : (loopIter s0).exited = true
    · rw [if_pos hx] at h
      have hs : loopIter s0 = s := Option.some.inj h
      refine ⟨1, le_refl 1, by omega, ?_, ?_, ?_⟩
      · simp [hs]
      · rw [← hs]; exact hx
      · intro j h1 h2; omega
    · rw [if_neg hx] at h
      obtain ⟨k, hk1, hk2, hk3, hk4, hk5⟩ := ih (loopIter s0) s h
      refine ⟨k + 1, by omega, by omega, ?_, hk4, ?_⟩
      · rw [Function.iterate_succ_apply]; exact hk3
      · intro j h1 h2
        obtain ⟨i, rfl⟩ : ∃ i, j = i + 1 := ⟨j - 1, by omega⟩
        rw [Function.iterate_succ_apply]
        rcases Nat.eq_zero_or_pos i with h0 | hpos
        · subst h0
          simpa using hx
        · exact hk5 i hpos (by omega)

/-- On the ARM target the macro runs the loop `loopPasses (cycles / 3)` times. -/
theorem our_delay_cycles_arm (fuel cycles : Nat) (h : cycles < UINT32_MOD) :
    our_delay_cycles true fuel cycles =
      if loopPasses (cycles / 3) ≤ fuel then
        some { counter := 0, iters := loopPasses (cycles / 3), exited := true }
      else none := by
  have h3 : cycles / 3 < UINT32_MOD := lt_of_le_of_lt (Nat.div_le_self _ _) h
  exact our_delay_cycles_internal_arm fuel (cycles / 3) h3

theorem loopPasses_le (c : Nat) (h : c < UINT32_MOD) : loopPasses c ≤ UINT32_MOD := by
  unfold loopPasses
  split <;> omega

theorem loopPasses_pos (c : Nat) : 1 ≤ loopPasses c := by
  unfold loopPasses UINT32_MOD
  split <;> omega

/-- For requests of at least three cycles the delay grows with the request. -/
theorem our_delay_cycles_mono_of_three_le (n : Nat) (h3 : 3 ≤ n)
    (h : 2 * n < UINT32_MOD) :
    ∃ s1 s2, our_delay_cycles true UINT32_MOD n = some s1 ∧
      our_delay_cycles true UINT32_MOD (2 * n) = some s2 ∧ s1.iters ≤ s2.iters := by
  have hn : n < UINT32_MOD := by omega
  have e1 : loopPasses (n / 3) = n / 3 := by
    have : n / 3 ≠ 0 := by omega
    simp [loopPasses, this]
  have e2 : loopPasses (2 * n / 3) = 2 * n / 3 := by
    have : 2 * n / 3 ≠ 0 := by omega
    simp [loopPasses, this]
  have l1 : n / 3 ≤ UINT32_MOD := by omega
  have l2 : 2 * n / 3 ≤ UINT32_MOD := by omega
  refine ⟨{ counter := 0, iters := n / 3, exited := true },
    { counter := 0, iters := 2 * n / 3, exited := true }, ?_, ?_, ?_⟩
  · rw [our_delay_cycles_arm _ _ hn, e1, if_pos l1]
  · rw [our_delay_cycles_arm _ _ h, e2, if_pos l2]
  · show n / 3 ≤ 2 * n / 3
    omega

/-! ### Claims about `our_delay_cycles` -/

/-- C1: monotonicity of the delay fails at `n = 2`. On the ARM target
`our_delay_cycles(2)` enters the loop with a zero register and makes `2 ^ 32`
passes, while `our_delay_cycles(4)` makes a single pass, so the delay for
`2 * n` is shorter than the delay for `n`. -/
theorem our_delay_cycles_two_longer_than_four :
    our_delay_cycles true (2 ^ 32) 2 =
        some { counter := 0, iters := 2 ^ 32, exited := true } ∧
      our_delay_cycles true (2 ^ 32) 4 =
        some { counter := 0, iters := 1, exited := true } ∧
      ¬ (∀ n : Nat, 0 < n → 2 * n < 2 ^ 32 →
          ∀ s1 s2, our_delay_cycles true (2 ^ 32) n = some s1 →
            our_delay_cycles true (2 ^ 32) (2 * n) = some s2 → s1.iters ≤ s2.iters) := by
  have h2 : our_delay_cycles true (2 ^ 32) 2 =
      some { counter := 0, iters := 2 ^ 32, exited := true } := by
    rw [our_delay_cycles_arm _ _ (by decide)]
    simp [loopPasses, UINT32_MOD]
  have h4 : our_delay_cycles true (2 ^ 32) 4 =
      some { counter := 0, iters := 1, exited := true } := by
    rw [our_delay_cycles_arm _ _ (by decide)]
    simp [loopPasses, UINT32_MOD]
  refine ⟨h2, h4, ?_⟩
  intro hall
  have := hall 2 (by decide) (by decide) _ _ h2 h4
  simp at this

/-- C2: lower bound of the delay. For every 32-bit `cycles` the call
`our_delay_cycles(cycles)` on the ARM target finishes, and at three clock
cycles per pass the passes it made cost at least `cycles - 2` cycles; the
bound holds for whatever fuel lets the run finish. -/
theorem our_delay_cycles_lower_bound (cycles : Nat) (h : cycles < 2 ^ 32) :
    (∃ s, our_delay_cycles true (2 ^ 32) cycles = some s ∧ s.exited = true ∧
        cycles ≤ 3 * s.iters + 2 ∧ cycles - 2 ≤ 3 * s.iters) ∧
      ∀ fuel s, our_delay_cycles true fuel cycles = some s →
        cycles ≤ 3 * s.iters + 2 := by
  have hc : cycles < UINT32_MOD := h
  have hp : cycles ≤ 3 * loopPasses (cycles / 3) + 2 := by
    unfold loopPasses UINT32_MOD
    split <;> omega
  have hle : loopPasses (cycles / 3) ≤ 2 ^ 32 :=
    loopPasses_le _ (lt_of_le_of_lt (Nat.div_le_self _ _) hc)
  constructor
  · refine ⟨{ counter := 0, iters := loopPasses (cycles / 3), exited := true },
      ?_, rfl, hp, ?_⟩
    · rw [our_delay_cycles_arm _ _ hc, if_pos hle]
    · show cycles - 2 ≤ 3 * loopPasses (cycles / 3)
      omega
  · intro fuel s hs
    rw [our_delay_cycles_arm _ _ hc] at hs
    by_cases hf : loopPasses (cycles / 3) ≤ fuel
    · rw [if_pos hf] at hs
      rw [← Option.some.inj hs]
      exact hp
    · rw [if_neg hf] at hs
      exact absurd hs (by simp)

/-- Witness for C2 at `cycles = 7`. -/
theorem our_delay_cycles_lower_bound_witness :
    7 < 2 ^ 32 ∧
      (∃ s, our_delay_cycles true (2 ^ 32) 7 = some s ∧ s.exited = true ∧
          7 ≤ 3 * s.iters + 2 ∧ 7 - 2 ≤ 3 * s.iters) ∧
        ∀ fuel s, our_delay_cycles true fuel 7 = some s → 7 ≤ 3 * s.iters + 2 :=
  ⟨by decide, our_delay_cycles_lower_bound 7 (by decide)⟩

/-- C3: normalisation by the divisor. For every 32-bit `cycles ≥ 3` the macro
enters the loop with the register holding `cycles / 3`, and the loop makes
exactly `cycles / 3` passes before falling through: any fuel of at least
`cycles / 3` gives that result and less fuel leaves the loop running. The
cost `3 * (cycles / 3)` does not exceed `cycles` and is short of it by at
most 2. -/
theorem our_delay_cycles_normalised (cycles : Nat) (h3 : 3 ≤ cycles)
    (h : cycles < 2 ^ 32) :
    (∀ fuel, our_delay_cycles true fuel cycles =
        our_delay_cycles_loop fuel
          { counter := cycles / 3, iters := 0, exited := false }) ∧
      (∀ fuel, cycles / 3 ≤ fuel → our_delay_cycles true fuel cycles =
        some { counter := 0, iters := cycles / 3, exited := true }) ∧
      (∀ fuel, fuel < cycles / 3 → our_delay_cycles true fuel cycles = none) ∧
      3 * (cycles / 3) ≤ cycles ∧ cycles ≤ 3 * (cycles / 3) + 2 := by
  have hc : cycles < UINT32_MOD := h
  have h3lt : cycles / 3 < UINT32_MOD := lt_of_le_of_lt (Nat.div_le_self _ _) hc
  have e : loopPasses (cycles / 3) = cycles / 3 := by
    have : cycles / 3 ≠ 0 := by omega
    simp [loopPasses, this]
  refine ⟨?_, ?_, ?_, by omega, by omega⟩
  · intro fuel
    simp [our_delay_cycles, our_delay_cycles_internal, Nat.mod_eq_of_lt h3lt]
  · intro fuel hf
    rw [our_delay_cycles_arm _ _ hc, e, if_pos hf]
  · intro fuel hf
    rw [our_delay_cycles_arm _ _ hc, e, if_neg (by omega)]

/-- Witness for C3 at `cycles = 10`. -/
theorem our_delay_cycles_normalised_witness :
    our_delay_cycles true 3 10 = some { counter := 0, iters := 3, exited := true } ∧
      our_delay_cycles true 2 10 = none :=
  ⟨(our_delay_cycles_normalised 10 (by decide) (by decide)).2.1 3 (by decide),
   (our_delay_cycles_normalised 10 (by decide) (by decide)).2.2.1 2 (by decide)⟩

/-- C4: termination of the count-down. For every 32-bit `n_cycles`, zero
included, iterating the loop body from the entry state reaches, after some
`k` passes with `1 ≤ k ≤ 2 ^ 32`, a state with a zero register in which the
branch is not taken; no earlier pass leaves the loop, and
`our_delay_cycles_internal` returns that state for every fuel of at least
`k`. -/
theorem our_delay_cycles_internal_terminates (n_cycles : Nat) (h : n_cycles < 2 ^ 32) :
    ∃ k, 1 ≤ k ∧ k ≤ 2 ^ 32 ∧
      (loopIter^[k] { counter := n_cycles, iters := 0, exited := false }).counter = 0 ∧
      (loopIter^[k] { counter := n_cycles, iters := 0, exited := false }).exited = true ∧
      (∀ j, 1 ≤ j → j < k →
        (loopIter^[j] { counter := n_cycles, iters := 0, exited := false }).exited = false) ∧
      ∀ fuel, k ≤ fuel → our_delay_cycles_internal true fuel n_cycles =
        some (loopIter^[k] { counter := n_cycles, iters := 0, exited := false }) := by
  have hc : n_cycles < UINT32_MOD := h
  have hle : loopPasses n_cycles ≤ 2 ^ 32 := loopPasses_le _ hc
  have hrun := our_delay_cycles_loop_eq (2 ^ 32) n_cycles 0 false hc
  rw [if_pos hle, Nat.zero_add] at hrun
  obtain ⟨k, hk1, hk2, hk3, _, hk5⟩ := our_delay_cycles_loop_iterate _ _ _ hrun
  have hki : k = loopPasses n_cycles := by
    have := congrArg DelayState.iters hk3
    rw [loopIter_iterate_iters] at this
    simp at this
    exact this.symm
  refine ⟨k, hk1, hk2, ?_, ?_, hk5, ?_⟩
  · rw [← hk3]
  · rw [← hk3]
  · intro fuel hf
    rw [our_delay_cycles_internal_arm _ _ hc, if_pos (by omega), ← hk3]

/-- Witness for C4 at `n_cycles = 0`. -/
theorem our_delay_cycles_internal_terminates_witness :
    0 < 2 ^ 32 ∧
      ∃ k, 1 ≤ k ∧ k ≤ 2 ^ 32 ∧
        (loopIter^[k] { counter := 0, iters := 0, exited := false }).counter = 0 ∧
        (loopIter^[k] { counter := 0, iters := 0, exited := false }).exited = true ∧
        (∀ j, 1 ≤ j → j < k →
          (loopIter^[j] { counter := 0, iters := 0, exited := false }).exited = false) ∧
        ∀ fuel, k ≤ fuel → our_delay_cycles_internal true fuel 0 =
          some (loopIter^[k] { counter := 0, iters := 0, exited := false }) :=
  ⟨by decide, our_delay_cycles_internal_terminates 0 (by decide)⟩

/-- C9, as stated, fails: built without `__arm__`, `our_delay_cycles(3)` returns
with no fuel at all, having made no pass through a loop, and no amount of
fuel makes it perform one. -/
theorem our_delay_cycles_non_arm_no_spin :
    our_delay_cycles false 0 3 = some { counter := 1, iters := 0, exited := true } ∧
      ¬ ∃ fuel s, our_delay_cycles false fuel 3 = some s ∧ 1 ≤ s.iters := by
  refine ⟨by decide, ?_⟩
  rintro ⟨fuel, s, hs, hi⟩
  simp [our_delay_cycles, our_delay_cycles_internal] at hs
  rw [← hs] at hi
  simp at hi

/-- C9, amended: built without `__arm__`, the body of
`our_delay_cycles_internal` is empty, so for every `cycles` the call
`our_delay_cycles(cycles)` returns at once, whatever the fuel, without a single
pass through a loop. -/
theorem our_delay_cycles_non_arm (fuel cycles : Nat) :
    our_delay_cycles false fuel cycles =
      some { counter := cycles / 3 % 2 ^ 32, iters := 0, exited := true } := by
  simp [our_delay_cycles, our_delay_cycles_internal, UINT32_MOD]

/-- C10: wrap-around for requests below the divisor. For `cycles` in
`{0, 1, 2}` the macro enters the ARM loop with a zero register; the first
decrement wraps it to `2 ^ 32 - 1` and the branch is taken, and the loop makes
exactly `2 ^ 32` passes: fuel `2 ^ 32` finishes the run with that count, and
any smaller fuel leaves it running. -/
theorem our_delay_cycles_wraps (cycles : Nat) (h : cycles < 3) :
    (∀ fuel, our_delay_cycles true fuel cycles =
        our_delay_cycles_loop fuel { counter := 0, iters := 0, exited := false }) ∧
      loopIter { counter := 0, iters := 0, exited := false } =
        { counter := 2 ^ 32 - 1, iters := 1, exited := false } ∧
      our_delay_cycles true (2 ^ 32) cycles =
        some { counter := 0, iters := 2 ^ 32, exited := true } ∧
      ∀ fuel, fuel < 2 ^ 32 → our_delay_cycles true fuel cycles = none := by
  have hc : cycles < UINT32_MOD := by unfold UINT32_MOD; omega
  have h0 : cycles / 3 = 0 := by omega
  have e : loopPasses (cycles / 3) = 2 ^ 32 := by simp [loopPasses, h0, UINT32_MOD]
  refine ⟨?_, by decide, ?_, ?_⟩
  · intro fuel
    simp [our_delay_cycles, our_delay_cycles_internal, h0]
  · rw [our_delay_cycles_arm _ _ hc, e, if_pos (le_refl _)]
  · intro fuel hf
    rw [our_delay_cycles_arm _ _ hc, e, if_neg (by omega)]

/-- Witness for C10 at `cycles = 2`. -/
theorem our_delay_cycles_wraps_witness :
    our_delay_cycles true (2 ^ 32) 2 =
        some { counter := 0, iters := 2 ^ 32, exited := true } ∧
      our_delay_cycles true 1000 2 = none :=
  ⟨(our_delay_cycles_wraps 2 (by decide)).2.2.1,
   (our_delay_cycles_wraps 2 (by decide)).2.2.2 1000 (by decide)⟩

/-! ### The number converter and the writers -/

/-- Every digit below 36 is read back from its character. -/
theorem digitVal_digitChar : ∀ d, d < 36 → digitVal (digitChar d) = some d := by
  decide

/-- Sending a string appends it to the bytes sent and invokes the primitive
once per byte. -/
theorem putStr_eq (cs : List Char) :
    ∀ u : Uart, putStr u cs = { sent := u.sent ++ cs, calls := u.calls + cs.length } := by
  induction cs with
  | nil => intro u; simp [putStr]
  | cons c cs ih =>
    intro u
    have h := ih (putc u c)
    simp only [putStr, List.foldl_cons] at h ⊢
    rw [h]
    simp [putc]
    omega

/-- The digit loop within its capacity: it returns a string that extends the
digits already produced and that reads back, in the same base, as the value
converted followed by those digits. -/
theorem convertDigits_parse (base : Nat) (hb : 2 ≤ base) (hb36 : base ≤ 36) (cap : Nat) :
    ∀ (num : Nat) (acc : List Char), num < base ^ cap →
      ∃ r k, convertDigits cap num base acc = some r ∧
        (0 < num → acc.length < r.length) ∧
        ∀ v, parseDigits base v r = parseDigits base (v * base ^ k + num) acc := by
  induction cap with
  | zero =>
    intro num acc h
    have h0 : num = 0 := by simpa using h
    subst h0
    exact ⟨acc, 0, by simp [convertDigits], by simp, by simp⟩
  | succ cap ih =>
    intro num acc h
    cases num with
    | zero => exact ⟨acc, 0, by simp [convertDigits], by simp, by simp⟩
    | succ n =>
      have hq : (n + 1) / base < base ^ cap := by
        rw [Nat.div_lt_iff_lt_mul (by omega)]
        rw [pow_succ] at h
        exact h
      have hm : (n + 1) % base < base := Nat.mod_lt _ (by omega)
      obtain ⟨r, k, hr, hlen, hparse⟩ :=
        ih ((n + 1) / base) (digitChar ((n + 1) % base) :: acc) hq
      refine ⟨r, k + 1, ?_, ?_, ?_⟩
      · simp only [convertDigits]
        exact hr
      · intro _
        rcases Nat.eq_zero_or_pos ((n + 1) / base) with hz | hpos
        · rw [hz] at hr
          simp [convertDigits] at hr
          rw [← hr]
          simp
        · have := hlen hpos
          simp at this
          omega
      · intro v
        rw [hparse v]
        simp only [parseDigits, digitVal_digitChar _ (lt_of_lt_of_le hm hb36), if_pos hm]
        congr 1
        have hdm := Nat.div_add_mod (n + 1) base
        rw [pow_succ]
        calc (v * base ^ k + (n + 1) / base) * base + (n + 1) % base
            = v * base ^ k * base + (base * ((n + 1) / base) + (n + 1) % base) := by ring
          _ = v * base ^ k * base + (n + 1) := by rw [hdm]
          _ = v * (base ^ k * base) + (n + 1) := by ring

/-- The 32-bit converter returns a numeral that parses back to its argument,
for every base in the contract. -/
theorem convert_parse (x base : Nat) (hx : x < 2 ^ 32) (hb : 2 ≤ base) (hb36 : base ≤ 36) :
    ∃ s, convert x base = some s ∧ parseNumeral base s = some x := by
  have hmod : x % UINT32_MOD = x := Nat.mod_eq_of_lt hx
  have hguard : ¬ (base < 2 ∨ 36 < base) := by omega
  rcases Nat.eq_zero_or_pos x with h0 | hpos
  · subst h0
    refine ⟨['0'], by simp [convert, hguard], ?_⟩
    have hv : digitVal '0' = some 0 := by decide
    have hlt : 0 < base := by omega
    simp [parseNumeral, parseDigits, hv, hlt]
  · have hcap : x < base ^ BUFFER_DIGITS := by
      have h1 : (2 : Nat) ^ 32 ≤ 2 ^ BUFFER_DIGITS := by decide
      have h2 : 2 ^ BUFFER_DIGITS ≤ base ^ BUFFER_DIGITS := Nat.pow_le_pow_left hb _
      omega
    obtain ⟨r, k, hr, hlen, hparse⟩ := convertDigits_parse base hb hb36 _ x [] hcap
    have hne : x ≠ 0 := by omega
    refine ⟨r, by simp [convert, hguard, hmod, hne, hr], ?_⟩
    have hl := hlen hpos
    cases r with
    | nil => simp at hl
    | cons c cs =>
      have := hparse 0
      simp only [parseNumeral]
      rw [this]
      simp [parseDigits]

/-- C5: round trip of the number converter. For every unsigned 32-bit `x` and
every base among 2, 8, 10, 16 and 36, `convert x base` returns a string, and
parsing that string as a numeral of the same base (digits 0 to 9, then a to z)
gives `x` back. -/
theorem convert_round_trip (x base : Nat) (hx : x < 2 ^ 32)
    (hbase : base ∈ [2, 8, 10, 16, 36]) :
    ∃ s, convert x base = some s ∧ parseNumeral base s = some x := by
  have hb : 2 ≤ base ∧ base ≤ 36 := by
    simp at hbase
    omega
  exact convert_parse x base hx hb.1 hb.2

/-- Witness for C5 at `x = 255`, `base = 16`, with the string computed. -/
theorem convert_round_trip_witness :
    convert 255 16 = some ['f', 'f'] ∧
      ∃ s, convert 255 16 = some s ∧ parseNumeral 16 s = some 255 :=
  ⟨by decide, convert_round_trip 255 16 (by decide) (by decide)⟩

/-- C6: formatted output of numeric specifiers. `print2uart("%u,%x", 10, 255)`
sends exactly the five bytes `10,ff`; and for all unsigned 32-bit `a` and `b`,
`print2uart("%u,%x", a, b)` adds to the bytes sent the string `convert a 10`,
a comma and the string `convert b 16`, one invocation of the byte-output
primitive per byte, and nothing else. -/
theorem print2uart_u_comma_x (a b : Nat) (ha : a < 2 ^ 32) (hb : b < 2 ^ 32) :
    print2uart "%u,%x".toList [Arg.word 10, Arg.word 255] { sent := [], calls := 0 } =
        some { sent := "10,ff".toList, calls := 5 } ∧
      ∃ sa sb, convert a 10 = some sa ∧ convert b 16 = some sb ∧
        ∀ u : Uart, print2uart "%u,%x".toList [Arg.word a, Arg.word b] u =
          some { sent := u.sent ++ sa ++ [','] ++ sb,
                 calls := u.calls + sa.length + 1 + sb.length } := by
  refine ⟨by decide, ?_⟩
  obtain ⟨sa, hsa, _⟩ := convert_parse a 10 ha (by decide) (by decide)
  obtain ⟨sb, hsb, _⟩ := convert_parse b 16 hb (by decide) (by decide)
  refine ⟨sa, sb, hsa, hsb, ?_⟩
  intro u
  have hfmt : "%u,%x".toList = ['%', 'u', ',', '%', 'x'] := by decide
  rw [hfmt]
  simp [print2uart, print2uartFrom, directive, putConverted, hsa, hsb, putStr_eq, putc]

/-- Witness for C6 at `a = 10`, `b = 255`. -/
theorem print2uart_u_comma_x_witness :
    ∃ sa sb, convert 10 10 = some sa ∧ convert 255 16 = some sb ∧
      ∀ u : Uart, print2uart "%u,%x".toList [Arg.word 10, Arg.word 255] u =
        some { sent := u.sent ++ sa ++ [','] ++ sb,
               calls := u.calls + sa.length + 1 + sb.length } :=
  (print2uart_u_comma_x 10 255 (by decide) (by decide)).2

/-- C7: the null sink emits nothing. For every format string, argument list
and UART state, `dummyprint` returns with the bytes sent and the count of
invocations of the byte-output primitive unchanged; and when `DEBUG` is not
defined, so does every call through `dprint2uart`. -/
theorem dummyprint_emits_nothing (ext : List String) (format : List Char)
    (args : List Arg) (u : Uart) (hdebug : "DEBUG" ∉ ext) :
    dummyprint format args u = some u ∧
      (dprint2uart ext).call format args u = some u := by
  have hsel : dprint2uart ext = PrintFn.dummyprint := by
    have hne : ¬ ("DEBUG" = "BuadRate") := by decide
    simp [dprint2uart, macrosAtSelection, hdebug, hne]
  rw [hsel]
  exact ⟨rfl, rfl⟩

/-- Witness for C7: the header as shipped, a format with a directive and an
argument, and a UART that has already sent a byte. -/
theorem dummyprint_emits_nothing_witness :
    dummyprint "%u".toList [Arg.word 7] { sent := ['a'], calls := 1 } =
        some { sent := ['a'], calls := 1 } ∧
      (dprint2uart []).call "%u".toList [Arg.word 7] { sent := ['a'], calls := 1 } =
        some { sent := ['a'], calls := 1 } :=
  dummyprint_emits_nothing [] "%u".toList [Arg.word 7] { sent := ['a'], calls := 1 }
    (by decide)

/-- C8: debug-sink selection. The pointer `dprint2uart` is initialised with
`print2uart` exactly when `DEBUG` is defined before the header is read, and
with `dummyprint` exactly when it is not; the header itself does not define
`DEBUG` (line 9 is a comment), so with no external definition `dprint2uart` is
`dummyprint`. -/
theorem dprint2uart_selection (ext : List String) :
    (dprint2uart ext = PrintFn.print2uart ↔ "DEBUG" ∈ ext) ∧
      (dprint2uart ext = PrintFn.dummyprint ↔ "DEBUG" ∉ ext) ∧
      "DEBUG" ∉ macrosAtSelection [] ∧
      dprint2uart [] = PrintFn.dummyprint := by
  have hne : ¬ ("DEBUG" = "BuadRate") := by decide
  refine ⟨?_, ?_, by decide, by decide⟩
  · by_cases h : "DEBUG" ∈ ext <;> simp [dprint2uart, macrosAtSelection, h, hne]
  · by_cases h : "DEBUG" ∈ ext <;> simp [dprint2uart, macrosAtSelection, h, hne]

end Tools
